import Mathlib

/-!
Shallow embedding of the bar-chart-race core
(`src/barChartRaceUI.js`, canonical controller version; the older
`src/barChartRace.js` and the draft in `part_002` share the same
transforms).

Modelling conventions:
* JS numbers that carry data values or timestamps are modelled as `ℚ`
  (the code performs exact linear blends `a*(1-t)+b*t`; the spec's
  claims are about that real arithmetic).
* A JS `Map` built by `d3.rollup` is an insertion-ordered association
  list `List (String × ℚ)` with pairwise-distinct keys; `Map.get` is
  first-match lookup.
* A JS `Date` is a calendar triple `MDate` (`getUTCFullYear`,
  `getUTCMonth` (0-based), `getUTCDate`); its numeric value `+date` is
  the strictly monotone encoding `MDate.ts`.  `new Set(xs)` is
  keep-first deduplication.
* `Array.prototype.sort` with a `d3.descending`/`d3.ascending`
  comparator is a stable sort, modelled with `List.mergeSort`.
* A JS runtime fault from indexing an empty array is modelled by
  `Option`/`Except` (`none`/`.error`), a thrown error likewise.
-/

namespace BCR

/-- An insertion-ordered `name ↦ value` table, one per snapshot date
(the inner map produced by `d3.rollup` in `buildDateValues`). -/
abbrev ValueMap := List (String × ℚ)

/-- One ranked bar, the object `{ name, value, rank }` built by `rank`. -/
structure Entry where
  name : String
  value : ℚ
  rnk : ℕ
deriving DecidableEq

/-- `Map.get(nm) ?? 0`: value of the first binding of `nm`, `0` when absent
(the `?? 0` fallback used inside `buildKeyframes`). -/
def getD (m : ValueMap) (nm : String) : ℚ :=
  ((m.find? fun p => decide (p.1 = nm)).map Prod.snd).getD 0

/-- First-match lookup without the `?? 0` fallback (`Map.get`). -/
def lookupPair (m : ValueMap) (nm : String) : Option ℚ :=
  (m.find? fun p => decide (p.1 = nm)).map Prod.snd

/-- `new Set(l)` as a list: keep the first occurrence of each element,
in encounter order. -/
def dedupKeepFirst {α : Type} [DecidableEq α] : List α → List α
  | [] => []
  | x :: xs => x :: (dedupKeepFirst xs).filter fun y => decide (y ≠ x)

/-- `new Set([...valuesA.keys(), ...valuesB.keys()])`: A's keys in order,
then B's keys not already seen. -/
def unionKeys (A B : ValueMap) : List String :=
  dedupKeepFirst (A.map Prod.fst ++ B.map Prod.fst)

/-- The source's `rank(valueByName)`: materialise the map into entries,
stable-sort descending by value (`d3.descending` comparator), then assign
`rank = Math.min(n, i)` by sorted position. -/
def rank (n : ℕ) (m : ValueMap) : List Entry :=
  ((m.mergeSort fun a b => decide (b.2 ≤ a.2)).enum.map
    fun ip => ⟨ip.2.1, ip.2.2, min n ip.1⟩)

/-- The interpolated value table for one sub-frame: for each name in the
union of the two key sets, `a * (1 - t) + b * t` with missing values
read as `0`. -/
def interpValues (A B : ValueMap) (t : ℚ) : ValueMap :=
  (unionKeys A B).map fun nm => (nm, getD A nm * (1 - t) + getD B nm * t)

/-- The `j`-th sub-frame of the pair `(A, B)` at `t = j / K`:
blended timestamp and ranked interpolated values. -/
def stepFrame (n : ℕ) (A B : ℚ × ValueMap) (K j : ℕ) : ℚ × List Entry :=
  (A.1 * (1 - (j : ℚ) / (K : ℚ)) + B.1 * ((j : ℚ) / (K : ℚ)),
   rank n (interpValues A.2 B.2 ((j : ℚ) / (K : ℚ))))

/-- The inner `for (let j = 0; j < K; ++j)` loop of `buildKeyframes`. -/
def pairFrames (n K : ℕ) (A B : ℚ × ValueMap) : List (ℚ × List Entry) :=
  (List.range K).map (stepFrame n A B K)

/-- `buildKeyframes(dateValues)` with `K = Math.max(1, state.k)`: all
sub-frames of adjacent pairs, then the final snapshot ranked once with no
interpolation.  `none` models the runtime fault of
`dateValues[dateValues.length - 1]` on an empty input. -/
def buildKeyframes (n k : ℕ) (dv : List (ℚ × ValueMap)) :
    Option (List (ℚ × List Entry)) :=
  match dv.getLast? with
  | none => none
  | some last =>
    some (((dv.zip dv.tail).flatMap fun p => pairFrames n (max 1 k) p.1 p.2) ++
      [(last.1, rank n last.2)])

/-- The frame list of `buildKeyframes`, defaulting to `[]` on the faulting
(empty) input; statement plumbing for the theorems below. -/
def framesD (n k : ℕ) (dv : List (ℚ × ValueMap)) : List (ℚ × List Entry) :=
  (buildKeyframes n k dv).getD []

/-- Value of the (unique) entry named `nm` in a frame's entry list. -/
def entryValue? (es : List Entry) (nm : String) : Option ℚ :=
  (es.find? fun e => decide (e.name = nm)).map Entry.value

/-- All positions `(frame index, position in frame)` of entries named `nm`,
in frame order: the per-name entry list `d3.group(frames.flatMap(...), d =>
d.name)` builds in `buildPrevNext`, with object identity modelled as the
position of the entry in the synthesized sequence. -/
def occList (F : List (ℚ × List Entry)) (nm : String) : List (ℕ × ℕ) :=
  F.enum.flatMap fun fr =>
    fr.2.2.enum.filterMap fun pe =>
      if pe.2.name = nm then some (fr.1, pe.1) else none

/-- `prev.get(entry)`: the predecessor link of `buildPrevNext`
(`prev.set(arr[i], arr[i-1])` for `i ≥ 1`); absence is `none`. -/
def prevOf (F : List (ℚ × List Entry)) (nm : String) (x : ℕ × ℕ) :
    Option (ℕ × ℕ) :=
  match (occList F nm).findIdx? fun y => decide (y = x) with
  | some (i + 1) => (occList F nm).get? i
  | _ => none

/-- `next.get(entry)`: the successor link of `buildPrevNext`
(`next.set(arr[i], arr[i+1])` for `i < length - 1`); absence is `none`. -/
def nextOf (F : List (ℚ × List Entry)) (nm : String) (x : ℕ × ℕ) :
    Option (ℕ × ℕ) :=
  match (occList F nm).findIdx? fun y => decide (y = x) with
  | some i => (occList F nm).get? (i + 1)
  | none => none

/-- A UTC calendar date as the code reads it: `getUTCFullYear`,
`getUTCMonth` (0-based), `getUTCDate`. -/
structure MDate where
  year : Int
  month : Int
  day : Int
deriving DecidableEq

/-- The numeric timeline `+date`: a strictly monotone stand-in for the UTC
millisecond timestamp (exact on calendar-valid dates, where
`0 ≤ month < 12` and `1 ≤ day ≤ 31`, as every successfully parsed JS
`Date` is). -/
def MDate.ts (d : MDate) : Int := d.year * 512 + d.month * 32 + d.day

/-- `new Date(Date.UTC(last.getUTCFullYear() - windowYears,
last.getUTCMonth(), 1))`. -/
def cutoffDate (last : MDate) (w : Int) : MDate :=
  ⟨last.year - w, last.month, 1⟩

/-- `applyWindow(dateValues)`: unbounded when `windowYears <= 0` (or `0`,
which is falsy), else keep the snapshots with `date >= cutoff`.  The `[]`
branch models the runtime fault of reading the last element of an empty
list (the claims assume a non-empty input). -/
def applyWindow (w : Int) (dv : List (MDate × ValueMap)) :
    List (MDate × ValueMap) :=
  if w ≤ 0 then dv
  else
    match dv.getLast? with
    | none => []
    | some last => dv.filter fun p => decide ((cutoffDate last.1 w).ts ≤ p.1.ts)

/-- One normalized observation (a surviving row of `baseData`). -/
structure Obs where
  date : MDate
  name : String
  value : ℚ
  category : String
deriving DecidableEq

/-- One raw CSV row at the parsing boundary: `date? = none` models a date
`new Date(...)` cannot parse (`isNaN(+d.date)`), `value? = none` a
non-finite `+d.value`, `category? = none` a missing `category` column. -/
structure RawRecord where
  date? : Option MDate
  name : String
  value? : Option ℚ
  category? : Option String
deriving DecidableEq

/-- The `.map(...)` + `.filter(...)` step of `baseData`: a row survives
iff its date parses and its value is finite; `category ?? "Unknown"`. -/
def normalizeRecord (r : RawRecord) : Option Obs :=
  match r.date?, r.value? with
  | some d, some v => some ⟨d, r.name, v, r.category?.getD "Unknown"⟩
  | _, _ => none

/-- `baseData` with its emptiness check: normalize, drop malformed rows
silently, stable-sort ascending by date, and fail only when nothing
survives (`throw new Error("No rows loaded from CSV.")`). -/
def baseDataOf (raw : List RawRecord) : Except String (List Obs) :=
  let rows :=
    (raw.filterMap normalizeRecord).mergeSort fun a b =>
      decide (a.date.ts ≤ b.date.ts)
  if rows.isEmpty then Except.error "No rows loaded from CSV." else Except.ok rows

/-- The inner `d3.rollup(v, ([d]) => d.value, d => d.name)` for one date:
names in encounter order, each mapped to its first observation's value. -/
def valueMapAt (data : List Obs) (dts : Int) : ValueMap :=
  let obs := data.filter fun o => decide (o.date.ts = dts)
  (dedupKeepFirst (obs.map Obs.name)).map fun nm =>
    (nm, (((obs.find? fun o => decide (o.name = nm)).map Obs.value).getD 0))

/-- `buildDateValues(data)`: group by `+d.date` (first-encounter key
order), then stable-sort ascending by date. -/
def buildDateValues (data : List Obs) : List (MDate × ValueMap) :=
  ((dedupKeepFirst (data.map Obs.date)).map fun d =>
    (d, valueMapAt data d.ts)).mergeSort fun a b => decide (a.1.ts ≤ b.1.ts)

/-- `Array.from(new Set(baseData.map(d => d.category)))`. -/
def categoryNamesOf (base : List Obs) : List String :=
  dedupKeepFirst (base.map Obs.category)

/-- `filteredData()`: keep the observations whose category is active. -/
def filteredData (base : List Obs) (cats : List String) : List Obs :=
  base.filter fun o => decide (o.category ∈ cats)

/-- The mutable controller state (`state` plus the module-level `frames`
and `frameIndex`).  The prev/next lookups are functions of `frames`
(`prevOf`/`nextOf`), so they are not stored separately. -/
structure RaceState where
  n : ℕ
  duration : ℚ
  k : ℕ
  windowYears : Int
  categories : List String
  playing : Bool
  frames : List (ℚ × List Entry)
  frameIndex : ℕ
deriving DecidableEq

/-- `Math.max(3, +newN || 10)`: the falsy argument `0` (and a non-numeric
one, outside this integer model) falls back to the default `10`. -/
def setTopNClamp (x : Int) : ℕ :=
  (max 3 (if x = 0 then 10 else x)).toNat

/-- `rebuildFrames()`: filter by category, group by date, apply the
window, then synthesize; dates enter the synthesizer as their numeric
timeline value (`+date`). -/
def rebuildFramesFor (base : List Obs) (s : RaceState) :
    Option (List (ℚ × List Entry)) :=
  buildKeyframes s.n s.k
    ((applyWindow s.windowYears
        (buildDateValues (filteredData base s.categories))).map
      fun p => ((p.1.ts : ℚ), p.2))

/-- `setTopN(newN)`: clamp, rebuild, reset the cursor; `none` when the
rebuild faults (empty data), never because of the argument. -/
def setTopN (base : List Obs) (s : RaceState) (x : Int) : Option RaceState :=
  let s1 : RaceState := { s with n := setTopNClamp x, frameIndex := 0 }
  (rebuildFramesFor base s1).map fun F => { s1 with frames := F }

/-- `setWindowYears(y)` (`+y || 0` is the identity on integers). -/
def setWindowYears (base : List Obs) (s : RaceState) (y : Int) :
    Option RaceState :=
  let s1 : RaceState := { s with windowYears := y, frameIndex := 0 }
  (rebuildFramesFor base s1).map fun F => { s1 with frames := F }

/-- `setCategories(list)`: an empty (or missing) list reactivates all
categories of the base data. -/
def setCategories (base : List Obs) (s : RaceState) (list : List String) :
    Option RaceState :=
  let s1 : RaceState :=
    { s with categories := if list.isEmpty then categoryNamesOf base else list,
             frameIndex := 0 }
  (rebuildFramesFor base s1).map fun F => { s1 with frames := F }

/-! ### Basic lemmas about the deduplication and the frame list shape -/

theorem mem_dedupKeepFirst {α : Type} [DecidableEq α] {a : α} {l : List α} :
    a ∈ dedupKeepFirst l ↔ a ∈ l := by
  induction l with
  | nil => simp [dedupKeepFirst]
  | cons x xs ih =>
    by_cases hax : a = x
    · subst hax; simp [dedupKeepFirst]
    · simp [dedupKeepFirst, List.mem_filter, hax, ih]

theorem dedupKeepFirst_nodup {α : Type} [DecidableEq α] (l : List α) :
    (dedupKeepFirst l).Nodup := by
  induction l with
  | nil => simp [dedupKeepFirst]
  | cons x xs ih =>
    rw [dedupKeepFirst, List.nodup_cons]
    refine ⟨fun hx => ?_, ih.filter _⟩
    have := List.of_mem_filter hx
    simp at this

theorem pairFrames_length (n K : ℕ) (A B : ℚ × ValueMap) :
    (pairFrames n K A B).length = K := by
  simp [pairFrames]

theorem flatMap_length_uniform {α β : Type} (f : α → List β) (C : ℕ) :
    ∀ (l : List α), (∀ a ∈ l, (f a).length = C) →
      (l.flatMap f).length = l.length * C
  | [], _ => by simp
  | a :: tl, h => by
    simp only [List.flatMap_cons, List.length_append, List.length_cons]
    rw [flatMap_length_uniform f C tl fun b hb => h b (List.mem_cons_of_mem _ hb),
      h a (List.mem_cons_self _ _)]
    ring

theorem flatMap_getElem?_uniform {α β : Type} (f : α → List β) (C : ℕ) :
    ∀ (l : List α), (∀ a ∈ l, (f a).length = C) →
      ∀ i j, j < C → ∀ hi : i < l.length,
      (l.flatMap f)[i * C + j]? = (f l[i])[j]?
  | [], _, i, j, _, hi => absurd hi (by simp)
  | a :: tl, h, 0, j, hj, _ => by
    have ha : (f a).length = C := h a (List.mem_cons_self _ _)
    simp only [List.flatMap_cons, Nat.zero_mul, Nat.zero_add, List.getElem_cons_zero]
    rw [List.getElem?_append_left (by omega)]
  | a :: tl, h, i + 1, j, hj, hi => by
    have ha : (f a).length = C := h a (List.mem_cons_self _ _)
    have hidx : (i + 1) * C + j = (f a).length + (i * C + j) := by
      rw [ha]; ring
    simp only [List.flatMap_cons, hidx]
    rw [List.getElem?_append_right (by omega)]
    have : (f a).length + (i * C + j) - (f a).length = i * C + j := by omega
    rw [this, List.getElem_cons_succ]
    exact flatMap_getElem?_uniform f C tl
      (fun b hb => h b (List.mem_cons_of_mem _ hb)) i j hj (by simpa using hi)

theorem buildKeyframes_eq_some {n k : ℕ} {dv : List (ℚ × ValueMap)}
    (h : dv ≠ []) : buildKeyframes n k dv = some (framesD n k dv) := by
  unfold framesD buildKeyframes
  cases hh : dv.getLast? with
  | none => exact absurd (List.getLast?_eq_none_iff.mp hh) h
  | some last => rfl

theorem zip_tail_length (dv : List (ℚ × ValueMap)) :
    (dv.zip dv.tail).length = dv.length - 1 := by
  simp only [List.length_zip, List.length_tail]
  omega

theorem zip_tail_getElem (dv : List (ℚ × ValueMap)) (i : ℕ)
    (h : i < (dv.zip dv.tail).length) (h2 : i + 1 < dv.length) :
    (dv.zip dv.tail)[i] = (dv[i], dv[i + 1]) := by
  rw [List.getElem_zip, List.getElem_tail]

theorem framesD_length {n k : ℕ} {dv : List (ℚ × ValueMap)} (h : dv ≠ []) :
    (framesD n k dv).length = (dv.length - 1) * max 1 k + 1 := by
  unfold framesD buildKeyframes
  cases hh : dv.getLast? with
  | none => exact absurd (List.getLast?_eq_none_iff.mp hh) h
  | some last =>
    simp only [Option.getD_some, List.length_append, List.length_cons,
      List.length_nil]
    rw [flatMap_length_uniform _ (max 1 k) _ fun p _ => pairFrames_length n _ p.1 p.2,
      zip_tail_length]

theorem framesD_getElem?_pair {n k : ℕ} {dv : List (ℚ × ValueMap)} {i : ℕ}
    (hij : i + 1 < dv.length) {j : ℕ} (hj : j < max 1 k) :
    (framesD n k dv)[i * max 1 k + j]? =
      some (stepFrame n dv[i] dv[i + 1] (max 1 k) j) := by
  have hne : dv ≠ [] := by intro h; subst h; simp at hij
  have hlen : ((dv.zip dv.tail).flatMap fun p =>
      pairFrames n (max 1 k) p.1 p.2).length = (dv.length - 1) * max 1 k := by
    rw [flatMap_length_uniform _ (max 1 k) _ fun p _ => pairFrames_length n _ p.1 p.2,
      zip_tail_length]
  have hi : i < (dv.zip dv.tail).length := by rw [zip_tail_length]; omega
  have hidx : i * max 1 k + j < (dv.length - 1) * max 1 k := by
    have h1 : i * max 1 k + j < (i + 1) * max 1 k := by
      rw [Nat.succ_mul]; omega
    have h2 : (i + 1) * max 1 k ≤ (dv.length - 1) * max 1 k :=
      Nat.mul_le_mul_right _ (by omega)
    omega
  unfold framesD buildKeyframes
  cases hh : dv.getLast? with
  | none => exact absurd (List.getLast?_eq_none_iff.mp hh) hne
  | some last =>
    simp only [Option.getD_some]
    rw [List.getElem?_append_left (by rw [hlen]; exact hidx),
      flatMap_getElem?_uniform _ (max 1 k) _
        (fun p _ => pairFrames_length n _ p.1 p.2) i j hj hi]
    rw [zip_tail_getElem dv i hi hij]
    simp [pairFrames, List.getElem?_map, List.getElem?_range hj]

theorem framesD_getElem?_last {n k : ℕ} {dv : List (ℚ × ValueMap)}
    (h : dv ≠ []) :
    (framesD n k dv)[(dv.length - 1) * max 1 k]? =
      some ((dv.getLast h).1, rank n (dv.getLast h).2) := by
  have hlen : ((dv.zip dv.tail).flatMap fun p =>
      pairFrames n (max 1 k) p.1 p.2).length = (dv.length - 1) * max 1 k := by
    rw [flatMap_length_uniform _ (max 1 k) _ fun p _ => pairFrames_length n _ p.1 p.2,
      zip_tail_length]
  unfold framesD buildKeyframes
  cases hh : dv.getLast? with
  | none => exact absurd (List.getLast?_eq_none_iff.mp hh) h
  | some last =>
    have hlast : last = dv.getLast h := by
      rw [List.getLast?_eq_getLast dv h] at hh
      exact ((Option.some.injEq _ _).mp hh).symm
    simp only [Option.getD_some]
    rw [List.getElem?_append_right (by rw [hlen]), hlen]
    simp [hlast]

/-! ### Lemmas about `rank` -/

theorem descValue_trans : ∀ a b c : String × ℚ,
    decide (b.2 ≤ a.2) = true → decide (c.2 ≤ b.2) = true →
    decide (c.2 ≤ a.2) = true := by
  intro a b c hab hbc
  simp only [decide_eq_true_eq] at *
  exact le_trans hbc hab

theorem descValue_total : ∀ a b : String × ℚ,
    (decide (b.2 ≤ a.2) || decide (a.2 ≤ b.2)) = true := by
  intro a b
  simpa using le_total b.2 a.2

theorem rank_map_pair (n : ℕ) (m : ValueMap) :
    (rank n m).map (fun e => (e.name, e.value)) =
      m.mergeSort fun a b => decide (b.2 ≤ a.2) := by
  unfold rank
  rw [List.map_map]
  have hc : ((fun e : Entry => (e.name, e.value)) ∘
      fun ip : ℕ × (String × ℚ) => (⟨ip.2.1, ip.2.2, min n ip.1⟩ : Entry)) =
      Prod.snd := by
    funext ip
    simp [Function.comp]
  rw [hc, List.enum_map_snd]

theorem rank_pair_perm (n : ℕ) (m : ValueMap) :
    ((rank n m).map fun e => (e.name, e.value)).Perm m := by
  rw [rank_map_pair]
  exact List.mergeSort_perm m _

theorem rank_map_name (n : ℕ) (m : ValueMap) :
    (rank n m).map Entry.name =
      (m.mergeSort fun a b => decide (b.2 ≤ a.2)).map Prod.fst := by
  rw [← rank_map_pair n m, List.map_map]
  rfl

theorem rank_name_perm (n : ℕ) (m : ValueMap) :
    ((rank n m).map Entry.name).Perm (m.map Prod.fst) := by
  rw [rank_map_name]
  exact (List.mergeSort_perm m _).map Prod.fst

theorem rank_length (n : ℕ) (m : ValueMap) : (rank n m).length = m.length := by
  simp [rank]

theorem rank_getElem_rnk (n : ℕ) (m : ValueMap) (i : ℕ)
    (h : i < (rank n m).length) : ((rank n m)[i]).rnk = min n i := by
  unfold rank at h ⊢
  rw [List.getElem_map, List.getElem_enum]

theorem rank_sorted (n : ℕ) (m : ValueMap) :
    (rank n m).Pairwise fun e f : Entry => f.value ≤ e.value := by
  have hs := List.sorted_mergeSort descValue_trans descValue_total m
  have hs' : (m.mergeSort fun a b => decide (b.2 ≤ a.2)).Pairwise
      fun a b : String × ℚ => b.2 ≤ a.2 :=
    hs.imp fun h => by simpa using h
  unfold rank
  rw [List.pairwise_map]
  have henum : ((m.mergeSort fun a b => decide (b.2 ≤ a.2)).enum).Pairwise
      fun x y : ℕ × (String × ℚ) => y.2.2 ≤ x.2.2 := by
    refine (@List.pairwise_map (ℕ × (String × ℚ)) (String × ℚ) Prod.snd
      (fun a b : String × ℚ => b.2 ≤ a.2)
      ((m.mergeSort fun a b => decide (b.2 ≤ a.2)).enum)).mp ?_
    rw [List.enum_map_snd]
    exact hs'
  exact henum.imp fun h => h

theorem rank_stable (n : ℕ) (m : ValueMap) (v : ℚ) :
    ((rank n m).filter fun e => decide (e.value = v)).map Entry.name =
      (m.filter fun p => decide (p.2 = v)).map Prod.fst := by
  have hfilter : (m.mergeSort fun a b => decide (b.2 ≤ a.2)).filter
      (fun p : String × ℚ => decide (p.2 = v)) =
      m.filter fun p : String × ℚ => decide (p.2 = v) := by
    have hc : (m.filter fun p : String × ℚ => decide (p.2 = v)).Pairwise
        fun a b : String × ℚ => decide (b.2 ≤ a.2) = true := by
      refine List.pairwise_of_forall_mem_list ?_
      intro a ha b hb
      have ha' : a.2 = v := by simpa using List.of_mem_filter ha
      have hb' : b.2 = v := by simpa using List.of_mem_filter hb
      simp [ha', hb']
    have h1 : List.Sublist (m.filter fun p : String × ℚ => decide (p.2 = v))
        (m.mergeSort fun a b => decide (b.2 ≤ a.2)) :=
      List.sublist_mergeSort descValue_trans descValue_total hc
        (List.filter_sublist m)
    have h2 : ((m.mergeSort fun a b => decide (b.2 ≤ a.2)).filter
        fun p : String × ℚ => decide (p.2 = v)).Perm
        (m.filter fun p : String × ℚ => decide (p.2 = v)) :=
      (List.mergeSort_perm m _).filter _
    have h3 := List.Sublist.filter
      (fun p : String × ℚ => decide (p.2 = v)) h1
    simp only [List.filter_filter, Bool.and_self] at h3
    exact (h3.eq_of_length h2.length_eq.symm).symm
  unfold rank
  rw [List.filter_map, List.map_map]
  have e1 : (Entry.name ∘ fun ip : ℕ × (String × ℚ) =>
      (⟨ip.2.1, ip.2.2, min n ip.1⟩ : Entry)) = (Prod.fst ∘ Prod.snd) := rfl
  have e2 : ((fun e : Entry => decide (e.value = v)) ∘
      fun ip : ℕ × (String × ℚ) => (⟨ip.2.1, ip.2.2, min n ip.1⟩ : Entry)) =
      ((fun p : String × ℚ => decide (p.2 = v)) ∘ Prod.snd) := rfl
  rw [e1, e2, ← List.map_map, ← List.filter_map, List.enum_map_snd, hfilter]

theorem rank_of_sorted {m : ValueMap}
    (h : m.Pairwise fun a b : String × ℚ => b.2 ≤ a.2) (n : ℕ) :
    rank n m = m.enum.map fun ip => ⟨ip.2.1, ip.2.2, min n ip.1⟩ := by
  unfold rank
  rw [List.mergeSort_of_sorted (h.imp fun hab => by simpa using hab)]

/-! ### Lemmas about lookups -/

theorem getD_eq_lookupPair (m : ValueMap) (nm : String) :
    getD m nm = (lookupPair m nm).getD 0 := rfl

theorem lookupPair_graph (l : List String) (f : String → ℚ) (x : String) :
    lookupPair (l.map fun nm => (nm, f nm)) x =
      if x ∈ l then some (f x) else none := by
  induction l with
  | nil => simp [lookupPair]
  | cons a tl ih =>
    rw [List.map_cons, lookupPair, List.find?_cons]
    by_cases hax : a = x
    · subst hax
      simp
    · have hax' : ¬ (x = a) := fun h => hax h.symm
      have hd : decide (((a, f a) : String × ℚ).1 = x) = false := by
        simpa using hax
      rw [hd]
      unfold lookupPair at ih
      simpa [List.mem_cons, hax'] using ih

theorem keys_nodup_value_unique {m : ValueMap}
    (h : (m.map Prod.fst).Nodup) {nm : String} {v w : ℚ}
    (hv : (nm, v) ∈ m) (hw : (nm, w) ∈ m) : v = w := by
  induction m with
  | nil => simp at hv
  | cons p tl ih =>
    rw [List.map_cons, List.nodup_cons] at h
    rcases List.mem_cons.mp hv with hv1 | hv1 <;>
      rcases List.mem_cons.mp hw with hw1 | hw1
    · exact congrArg Prod.snd (hv1.trans hw1.symm)
    · exfalso
      exact h.1 (by rw [← hv1]; simpa using List.mem_map_of_mem Prod.fst hw1)
    · exfalso
      exact h.1 (by rw [← hw1]; simpa using List.mem_map_of_mem Prod.fst hv1)
    · exact ih h.2 hv1 hw1

theorem find?_eq_some_unique {α : Type} {p : α → Bool} {l : List α} {x : α}
    (hx : x ∈ l) (hpx : p x = true)
    (huniq : ∀ y ∈ l, p y = true → y = x) : l.find? p = some x := by
  induction l with
  | nil => simp at hx
  | cons a tl ih =>
    by_cases hpa : p a = true
    · rw [List.find?_cons_of_pos _ hpa]
      exact congrArg some (huniq a (List.mem_cons_self _ _) hpa)
    · rw [List.find?_cons_of_neg _ hpa]
      rcases List.mem_cons.mp hx with h1 | h1
      · exact absurd (h1 ▸ hpx) hpa
      · exact ih h1 fun y hy => huniq y (List.mem_cons_of_mem _ hy)

theorem lookupPair_perm {l l' : ValueMap} (h : l.Perm l')
    (hn : (l.map Prod.fst).Nodup) (nm : String) :
    lookupPair l nm = lookupPair l' nm := by
  have hn' : (l'.map Prod.fst).Nodup := ((h.map Prod.fst).nodup_iff).mp hn
  by_cases hm : nm ∈ l.map Prod.fst
  · obtain ⟨p, hp, hfst⟩ := List.mem_map.mp hm
    have hpmem : (nm, p.2) ∈ l := by
      rw [← hfst]
      simpa using hp
    have huniq : ∀ y ∈ l, decide (y.1 = nm) = true → y = (nm, p.2) := by
      intro y hy hfy
      obtain ⟨y1, y2⟩ := y
      have h1 : y1 = nm := by simpa using hfy
      subst h1
      have := keys_nodup_value_unique hn hy hpmem
      rw [this]
    have huniq' : ∀ y ∈ l', decide (y.1 = nm) = true → y = (nm, p.2) :=
      fun y hy => huniq y (h.mem_iff.mpr hy)
    rw [lookupPair, lookupPair,
      find?_eq_some_unique hpmem (by simp) huniq,
      find?_eq_some_unique (h.mem_iff.mp hpmem) (by simp) huniq']
  · have h1 : l.find? (fun p => decide (p.1 = nm)) = none := by
      rw [List.find?_eq_none]
      intro x hx hc
      exact hm (List.mem_map.mpr ⟨x, hx, by simpa using hc⟩)
    have h2 : l'.find? (fun p => decide (p.1 = nm)) = none := by
      rw [List.find?_eq_none]
      intro x hx hc
      exact hm (List.mem_map.mpr ⟨x, h.mem_iff.mpr hx, by simpa using hc⟩)
    rw [lookupPair, lookupPair, h1, h2]

theorem entryValue?_map_pair (es : List Entry) (nm : String) :
    entryValue? es nm = lookupPair (es.map fun e => (e.name, e.value)) nm := by
  unfold entryValue? lookupPair
  rw [List.find?_map, Option.map_map]
  rfl

theorem entryValue?_rank (n : ℕ) {m : ValueMap}
    (hn : (m.map Prod.fst).Nodup) (nm : String) :
    entryValue? (rank n m) nm = lookupPair m nm := by
  rw [entryValue?_map_pair, rank_map_pair]
  refine lookupPair_perm (List.mergeSort_perm m _) ?_ nm
  exact (((List.mergeSort_perm m _).map Prod.fst).nodup_iff).mpr hn

theorem unionKeys_nodup (A B : ValueMap) : (unionKeys A B).Nodup :=
  dedupKeepFirst_nodup _

theorem mem_unionKeys {nm : String} {A B : ValueMap} :
    nm ∈ unionKeys A B ↔ nm ∈ A.map Prod.fst ∨ nm ∈ B.map Prod.fst := by
  simp [unionKeys, mem_dedupKeepFirst]

theorem interpValues_keys (A B : ValueMap) (t : ℚ) :
    (interpValues A B t).map Prod.fst = unionKeys A B := by
  rw [interpValues, List.map_map]
  exact List.map_id _ ▸ List.map_congr_left fun a _ => rfl

theorem interpValues_lookup {nm : String} {A B : ValueMap}
    (hm : nm ∈ unionKeys A B) (t : ℚ) :
    lookupPair (interpValues A B t) nm =
      some (getD A nm * (1 - t) + getD B nm * t) := by
  rw [interpValues, lookupPair_graph]
  simp [hm]

theorem getD_eq_zero_of_not_mem {nm : String} {m : ValueMap}
    (h : ¬ nm ∈ m.map Prod.fst) : getD m nm = 0 := by
  have hfind : m.find? (fun p => decide (p.1 = nm)) = none := by
    rw [List.find?_eq_none]
    intro x hx hc
    exact h (List.mem_map.mpr ⟨x, hx, by simpa using hc⟩)
  rw [getD, hfind]
  rfl

/-! ### Timestamp monotonicity of the synthesized frames -/

theorem blend_lt_blend {a b t s : ℚ} (hab : a < b) (hts : t < s) :
    a * (1 - t) + b * t < a * (1 - s) + b * s := by nlinarith

theorem blend_lt_right {a b t : ℚ} (hab : a < b) (ht : t < 1) :
    a * (1 - t) + b * t < b := by nlinarith

theorem stepFrame_fst (n : ℕ) (A B : ℚ × ValueMap) (K j : ℕ) :
    (stepFrame n A B K j).1 =
      A.1 * (1 - (j : ℚ) / (K : ℚ)) + B.1 * ((j : ℚ) / (K : ℚ)) := rfl

theorem stepFrame_snd (n : ℕ) (A B : ℚ × ValueMap) (K j : ℕ) :
    (stepFrame n A B K j).2 =
      rank n (interpValues A.2 B.2 ((j : ℚ) / (K : ℚ))) := rfl

theorem framesD_ts_chunk_start {n k : ℕ} {dv : List (ℚ × ValueMap)} {q : ℕ}
    (hq : q < dv.length) :
    ((framesD n k dv)[q * max 1 k]?).map Prod.fst = some (dv[q].1) := by
  have hK : 0 < max 1 k := Nat.lt_of_lt_of_le Nat.zero_lt_one (Nat.le_max_left 1 k)
  rcases Nat.lt_or_ge (q + 1) dv.length with h | h
  · have h0 := @framesD_getElem?_pair n k dv q h 0 hK
    rw [Nat.add_zero] at h0
    rw [h0]
    simp only [Option.map_some']
    congr 1
    rw [stepFrame_fst]
    norm_num
  · have hne : dv ≠ [] := List.ne_nil_of_length_pos (by omega)
    have hq' : q = dv.length - 1 := by omega
    subst hq'
    rw [framesD_getElem?_last hne]
    simp only [Option.map_some']
    congr 1
    rw [List.getLast_eq_getElem]

theorem framesD_ts_pairwise {n k : ℕ} {dv : List (ℚ × ValueMap)}
    (hne : dv ≠ []) (hsort : (dv.map Prod.fst).Pairwise (· < ·)) :
    ((framesD n k dv).map Prod.fst).Pairwise (· < ·) := by
  have hK : 0 < max 1 k := Nat.lt_of_lt_of_le Nat.zero_lt_one (Nat.le_max_left 1 k)
  have hKQ : (0 : ℚ) < ((max 1 k : ℕ) : ℚ) := by exact_mod_cast hK
  have hconsec : ∀ a (ha : a + 1 < dv.length),
      dv[a].1 < dv[a+1].1 := by
    intro a ha
    have := List.pairwise_iff_getElem.mp hsort a (a + 1)
      (by simp only [List.length_map]; omega)
      (by simp only [List.length_map]; omega) (Nat.lt_succ_self a)
    simpa using this
  rw [← List.chain'_iff_pairwise, List.chain'_iff_get]
  intro i hi
  have hlen : ((framesD n k dv).map Prod.fst).length =
      (dv.length - 1) * max 1 k + 1 := by
    simp [framesD_length hne]
  rw [hlen] at hi
  have hi' : i < (dv.length - 1) * max 1 k := by omega
  obtain ⟨q, r, hr, hq, rfl⟩ :
      ∃ q r, r < max 1 k ∧ q < dv.length - 1 ∧ i = q * max 1 k + r := by
    refine ⟨i / max 1 k, i % max 1 k, Nat.mod_lt _ hK,
      (Nat.div_lt_iff_lt_mul hK).mpr hi', ?_⟩
    rw [Nat.mul_comm (i / max 1 k) (max 1 k)]
    exact (Nat.div_add_mod i (max 1 k)).symm
  have hq1 : q + 1 < dv.length := by omega
  have hFi : (framesD n k dv)[q * max 1 k + r]? =
      some (stepFrame n dv[q] dv[q+1] (max 1 k) r) :=
    framesD_getElem?_pair hq1 hr
  obtain ⟨hilt, hieq⟩ := List.getElem?_eq_some_iff.mp hFi
  have hblt : dv[q].1 < dv[q+1].1 := hconsec _ hq1
  simp only [List.get_eq_getElem, List.getElem_map]
  rw [hieq, stepFrame_fst]
  rcases Nat.lt_or_ge (r + 1) (max 1 k) with hcase | hcase
  · -- the next frame is a later sub-frame of the same pair
    have hFi1 : (framesD n k dv)[q * max 1 k + r + 1]? =
        some (stepFrame n dv[q] dv[q+1] (max 1 k) (r+1)) := by
      have harr : q * max 1 k + r + 1 = q * max 1 k + (r + 1) := by omega
      rw [harr]
      exact framesD_getElem?_pair hq1 hcase
    obtain ⟨hjlt, hjeq⟩ := List.getElem?_eq_some_iff.mp hFi1
    rw [hjeq, stepFrame_fst]
    refine blend_lt_blend hblt ?_
    rw [div_lt_div_iff_of_pos_right hKQ]
    exact_mod_cast Nat.lt_succ_self r
  · -- boundary: the next frame opens the next pair (or is the final frame)
    have hnext : q * max 1 k + r + 1 = (q + 1) * max 1 k := by
      rw [Nat.succ_mul]
      omega
    have hstart : ((framesD n k dv)[q * max 1 k + r + 1]?).map Prod.fst =
        some (dv[q+1].1) := by
      rw [hnext]
      exact framesD_ts_chunk_start hq1
    obtain ⟨y, hy, hy1⟩ : ∃ y, (framesD n k dv)[q * max 1 k + r + 1]? = some y ∧
        y.1 = dv[q+1].1 := by
      cases hgy : (framesD n k dv)[q * max 1 k + r + 1]? with
      | none => rw [hgy] at hstart; simp at hstart
      | some y =>
        rw [hgy] at hstart
        simp only [Option.map_some'] at hstart
        exact ⟨y, rfl, by simpa using hstart⟩
    obtain ⟨hjlt, hjeq⟩ := List.getElem?_eq_some_iff.mp hy
    rw [hjeq, hy1]
    refine blend_lt_right hblt ?_
    rw [div_lt_one hKQ]
    exact_mod_cast hr

/-! ### Sample data shared by the concrete witnesses -/

/-- A two-snapshot sample: entity `X` grows from 2 to 4. -/
def sampleA : ValueMap := [("X", 2)]

/-- Second sample snapshot. -/
def sampleB : ValueMap := [("X", 4)]

/-- The sample snapshot list (timestamps 0 and 1). -/
def sampleDv : List (ℚ × ValueMap) := [(0, sampleA), (1, sampleB)]

/-! ### Claim C1 -/

/-- C1: for a snapshot list with `m ≥ 1` snapshots whose timestamps are
distinct and sorted ascending, and `stepsPerInterval = k ≥ 1`, the frame
synthesizer succeeds and returns exactly `(m − 1) · k + 1` frames whose
timestamps are strictly ascending (in particular `m = 1` yields exactly
one frame, the `m = 1` case of the count). -/
theorem C1_frame_count (n k : ℕ) (dv : List (ℚ × ValueMap))
    (hm : dv ≠ []) (hk : 1 ≤ k)
    (hsort : (dv.map Prod.fst).Pairwise (· < ·)) :
    (buildKeyframes n k dv).isSome ∧
    (framesD n k dv).length = (dv.length - 1) * k + 1 ∧
    ((framesD n k dv).map Prod.fst).Pairwise (· < ·) := by
  have hmax : max 1 k = k := Nat.max_eq_right hk
  refine ⟨?_, ?_, framesD_ts_pairwise hm hsort⟩
  · rw [buildKeyframes_eq_some hm]
    rfl
  · rw [framesD_length hm, hmax]

/-- Witness for C1 at the concrete two-snapshot sample. -/
theorem C1_witness :
    sampleDv ≠ [] ∧ 1 ≤ 2 ∧ (sampleDv.map Prod.fst).Pairwise (· < ·) ∧
    ((buildKeyframes 10 2 sampleDv).isSome ∧
     (framesD 10 2 sampleDv).length = (sampleDv.length - 1) * 2 + 1 ∧
     ((framesD 10 2 sampleDv).map Prod.fst).Pairwise (· < ·)) := by
  have h1 : sampleDv ≠ [] := by simp [sampleDv]
  have h3 : (sampleDv.map Prod.fst).Pairwise (· < ·) := by
    norm_num [sampleDv, List.pairwise_cons]
  exact ⟨h1, by norm_num, h3, C1_frame_count 10 2 sampleDv h1 (by norm_num) h3⟩

/-! ### Claim C2 -/

/-- C2: for every adjacent snapshot pair `(A at tA, B at tB)` and every
`j ∈ [0, k)`, the sub-frame at `t = j/k` assigns each entity of the union
of the two entity sets the value `valueA · (1 − t) + valueB · t`, a
missing entity contributing `0`; an entity first appearing in `B` hence
gets `0 · (1 − 0) + valueB · 0 = 0` at `t = 0` instead of faulting. -/
theorem C2_interpolated_value (n k : ℕ) (dv : List (ℚ × ValueMap))
    (i j : ℕ) (tA tB : ℚ) (A B : ValueMap) (nm : String)
    (hk : 1 ≤ k) (hj : j < k)
    (hA : dv[i]? = some (tA, A)) (hB : dv[i+1]? = some (tB, B))
    (hnm : nm ∈ unionKeys A B) :
    ((framesD n k dv)[i * k + j]?).map (fun fr => entryValue? fr.2 nm) =
      some (some (getD A nm * (1 - (j : ℚ) / (k : ℚ)) +
        getD B nm * ((j : ℚ) / (k : ℚ)))) := by
  have hmax : max 1 k = k := Nat.max_eq_right hk
  obtain ⟨hiltB, hieqB⟩ := List.getElem?_eq_some_iff.mp hB
  obtain ⟨hiltA, hieqA⟩ := List.getElem?_eq_some_iff.mp hA
  have hpair := @framesD_getElem?_pair n k dv i hiltB j
    (lt_of_lt_of_le hj (Nat.le_max_right 1 k))
  rw [hmax] at hpair
  rw [hpair]
  simp only [Option.map_some']
  congr 1
  rw [hieqA, hieqB] at hpair ⊢
  rw [stepFrame_snd]
  have hnodup : ((interpValues A B ((j : ℚ) / (k : ℚ))).map Prod.fst).Nodup := by
    rw [interpValues_keys]
    exact unionKeys_nodup A B
  rw [entryValue?_rank n hnodup nm, interpValues_lookup hnm]

/-- Witness for C2: sub-frame `j = 1` of `k = 2` on the sample data. -/
theorem C2_witness :
    1 ≤ 2 ∧ 1 < 2 ∧ sampleDv[0]? = some (0, sampleA) ∧
    sampleDv[0+1]? = some (1, sampleB) ∧ "X" ∈ unionKeys sampleA sampleB ∧
    ((framesD 10 2 sampleDv)[0 * 2 + 1]?).map (fun fr => entryValue? fr.2 "X") =
      some (some (getD sampleA "X" * (1 - (1 : ℚ) / (2 : ℚ)) +
        getD sampleB "X" * ((1 : ℚ) / (2 : ℚ)))) := by
  refine ⟨by norm_num, by norm_num, rfl, rfl, by decide, ?_⟩
  exact C2_interpolated_value 10 2 sampleDv 0 1 0 1 sampleA sampleB "X"
    (by norm_num) (by norm_num) rfl rfl (by decide)

/-! ### The `t = 0` boundary: union keys versus snapshot A's keys -/

theorem dedupKeepFirst_append {α : Type} [DecidableEq α] (l l' : List α)
    (h : l.Nodup) :
    dedupKeepFirst (l ++ l') =
      l ++ (dedupKeepFirst l').filter fun y => decide (¬ y ∈ l) := by
  induction l with
  | nil => simp
  | cons x xs ih =>
    rw [List.nodup_cons] at h
    rw [List.cons_append, dedupKeepFirst, ih h.2, List.filter_append]
    have h1 : (xs.filter fun y => decide (y ≠ x)) = xs :=
      List.filter_eq_self.mpr fun a ha => by
        simp only [decide_eq_true_eq]
        intro hax
        exact h.1 (hax ▸ ha)
    have h2 : (((dedupKeepFirst l').filter fun y => decide (¬ y ∈ xs)).filter
        fun y => decide (y ≠ x)) =
        (dedupKeepFirst l').filter fun y => decide (¬ y ∈ x :: xs) := by
      rw [List.filter_filter]
      refine List.filter_congr fun a _ => ?_
      by_cases ha1 : a = x <;> by_cases ha2 : a ∈ xs <;> simp [ha1, ha2]
    rw [h1, h2, List.cons_append]

theorem unionKeys_subset_eq {A B : ValueMap}
    (hAn : (A.map Prod.fst).Nodup)
    (hsub : ∀ x ∈ B.map Prod.fst, x ∈ A.map Prod.fst) :
    unionKeys A B = A.map Prod.fst := by
  rw [unionKeys, dedupKeepFirst_append _ _ hAn]
  have : ((dedupKeepFirst (B.map Prod.fst)).filter
      fun y => decide (¬ y ∈ A.map Prod.fst)) = [] := by
    rw [List.filter_eq_nil_iff]
    intro a ha
    simp only [decide_eq_true_eq, not_not]
    exact hsub a (mem_dedupKeepFirst.mp ha)
  rw [this, List.append_nil]

theorem map_getD_self {m : ValueMap} (hn : (m.map Prod.fst).Nodup) :
    (m.map Prod.fst).map (fun nm => (nm, getD m nm)) = m := by
  rw [List.map_map]
  have hpt : ∀ p ∈ m, ((fun nm => (nm, getD m nm)) ∘ Prod.fst) p = id p := by
    intro p hp
    have hpm : (p.1, p.2) ∈ m := hp
    have hfind : m.find? (fun q => decide (q.1 = p.1)) = some (p.1, p.2) := by
      apply find?_eq_some_unique hpm (by simp)
      intro y hy hfy
      obtain ⟨y1, y2⟩ := y
      have h1 : y1 = p.1 := by simpa using hfy
      subst h1
      have := keys_nodup_value_unique hn hy hpm
      rw [this]
    simp [Function.comp, getD, hfind]
  rw [List.map_congr_left hpt, List.map_id]

theorem interpValues_zero_of_subset {A B : ValueMap}
    (hAn : (A.map Prod.fst).Nodup)
    (hsub : ∀ x ∈ B.map Prod.fst, x ∈ A.map Prod.fst) :
    interpValues A B 0 = A := by
  rw [interpValues, unionKeys_subset_eq hAn hsub]
  have hpt : ∀ nm ∈ A.map Prod.fst,
      (nm, getD A nm * (1 - 0) + getD B nm * 0) = (nm, getD A nm) := by
    intro nm _
    congr 1
    ring
  rw [List.map_congr_left hpt]
  exact map_getD_self hAn

/-! ### Claim C3 (corrected) and claim C10 -/

/-- First snapshot of the C3 counterexample: only `X` is present. -/
def cexA : ValueMap := [("X", 100)]

/-- Second snapshot of the C3 counterexample: `Z` enters. -/
def cexB : ValueMap := [("X", 150), ("Z", 50)]

/-- The counterexample snapshot list. -/
def cexDv : List (ℚ × ValueMap) := [(0, cexA), (1, cexB)]

/-- C3 counterexample: with `Z` present only in snapshot B, the first
sub-frame of the pair (at `t = 0`) is NOT the ranking of snapshot A — it
has two entries (`X` and the entering `Z` at value 0) while `rank` of A
has one. -/
theorem C3_counterexample :
    (framesD 10 1 cexDv)[0]? ≠ some ((0 : ℚ), rank 10 cexA) ∧
    ((framesD 10 1 cexDv)[0]?).map (fun fr => fr.2.length) = some 2 ∧
    (rank 10 cexA).length = 1 := by
  have h0 : (framesD 10 1 cexDv)[0]? =
      some (stepFrame 10 ((0 : ℚ), cexA) ((1 : ℚ), cexB) 1 0) := by
    have := @framesD_getElem?_pair 10 1 cexDv 0 (by norm_num [cexDv]) 0
      (by norm_num)
    simpa [cexDv] using this
  have h2 : ((framesD 10 1 cexDv)[0]?).map (fun fr => fr.2.length) = some 2 := by
    rw [h0]
    simp only [Option.map_some']
    rw [stepFrame_snd, rank_length]
    simp only [interpValues, List.length_map]
    decide
  have h3 : (rank 10 cexA).length = 1 := by
    rw [rank_length]
    rfl
  refine ⟨?_, h2, h3⟩
  intro h
  rw [h] at h2
  simp only [Option.map_some', Option.some.injEq] at h2
  exact absurd (h3.symm.trans h2) (by norm_num)

/-- C3 (amended): the first sub-frame of an adjacent pair `(A, B)` ranks
the union of the two entity sets with A's values (so it equals the ranking
of snapshot A exactly whenever B introduces no entity absent from A — the
counterexample forces that proviso), and the last frame of the whole
sequence is the final snapshot ranked exactly, with no interpolation. -/
theorem C3_boundary_amended (n k : ℕ) (dv : List (ℚ × ValueMap)) (i : ℕ)
    (tA tB : ℚ) (A B : ValueMap)
    (hk : 1 ≤ k)
    (hA : dv[i]? = some (tA, A)) (hB : dv[i+1]? = some (tB, B))
    (hAn : (A.map Prod.fst).Nodup)
    (hsub : ∀ x ∈ B.map Prod.fst, x ∈ A.map Prod.fst) :
    (framesD n k dv)[i * k]? = some (tA, rank n A) ∧
    (∀ L, dv.getLast? = some L →
      (framesD n k dv)[(dv.length - 1) * k]? = some (L.1, rank n L.2)) := by
  have hmax : max 1 k = k := Nat.max_eq_right hk
  obtain ⟨hiltB, hieqB⟩ := List.getElem?_eq_some_iff.mp hB
  obtain ⟨hiltA, hieqA⟩ := List.getElem?_eq_some_iff.mp hA
  constructor
  · have hpair := @framesD_getElem?_pair n k dv i hiltB 0
      (Nat.lt_of_lt_of_le Nat.zero_lt_one (Nat.le_max_left 1 k))
    rw [hmax, Nat.add_zero] at hpair
    rw [hieqA, hieqB] at hpair
    rw [hpair]
    congr 1
    have ht : ((0 : ℕ) : ℚ) / (k : ℚ) = 0 := by simp
    refine Prod.ext ?_ ?_
    · rw [stepFrame_fst, ht]
      ring
    · rw [stepFrame_snd, ht, interpValues_zero_of_subset hAn hsub]
  · intro L hL
    have hne : dv ≠ [] := by
      intro hnil
      rw [hnil] at hL
      simp at hL
    have hlast := @framesD_getElem?_last n k dv hne
    rw [hmax] at hlast
    rw [hlast]
    have : dv.getLast hne = L := by
      rw [List.getLast?_eq_getLast dv hne] at hL
      exact (Option.some.injEq _ _).mp hL
    rw [this]

/-- Witness for the amended C3 on the sample data (B's entities are
contained in A's). -/
theorem C3_witness :
    1 ≤ 2 ∧ sampleDv[0]? = some (0, sampleA) ∧
    sampleDv[0+1]? = some (1, sampleB) ∧
    (sampleA.map Prod.fst).Nodup ∧
    (∀ x ∈ sampleB.map Prod.fst, x ∈ sampleA.map Prod.fst) ∧
    ((framesD 10 2 sampleDv)[0 * 2]? = some (0, rank 10 sampleA) ∧
     (∀ L, sampleDv.getLast? = some L →
       (framesD 10 2 sampleDv)[(sampleDv.length - 1) * 2]? =
         some (L.1, rank 10 L.2))) := by
  refine ⟨by norm_num, rfl, rfl, by decide, by decide, ?_⟩
  exact C3_boundary_amended 10 2 sampleDv 0 0 1 sampleA sampleB
    (by norm_num) rfl rfl (by decide) (by decide)

/-- C10: every interpolated sub-frame — including the one at `t = 0` —
has exactly one entry per entity of the union of the adjacent snapshots'
entity sets (its names are a permutation of the union, each counted
once); at `t = 0` an entity present only in B appears with value 0, so
the `t = 0` frame's entity set can strictly exceed snapshot A's. -/
theorem C10_union_frames (n k : ℕ) (dv : List (ℚ × ValueMap)) (i j : ℕ)
    (tA tB : ℚ) (A B : ValueMap)
    (hk : 1 ≤ k) (hj : j < k)
    (hA : dv[i]? = some (tA, A)) (hB : dv[i+1]? = some (tB, B))
    (fr : ℚ × List Entry)
    (hfr : (framesD n k dv)[i * k + j]? = some fr) :
    (fr.2.map Entry.name).Perm (unionKeys A B) ∧
    (∀ nm ∈ unionKeys A B, (fr.2.map Entry.name).count nm = 1) ∧
    (j = 0 → ∀ nm ∈ unionKeys A B, ¬ nm ∈ A.map Prod.fst →
      entryValue? fr.2 nm = some 0) := by
  have hmax : max 1 k = k := Nat.max_eq_right hk
  obtain ⟨hiltB, hieqB⟩ := List.getElem?_eq_some_iff.mp hB
  obtain ⟨hiltA, hieqA⟩ := List.getElem?_eq_some_iff.mp hA
  have hpair := @framesD_getElem?_pair n k dv i hiltB j
    (lt_of_lt_of_le hj (Nat.le_max_right 1 k))
  rw [hmax] at hpair
  rw [hieqA, hieqB] at hpair
  rw [hpair] at hfr
  have hfr2 : fr.2 = rank n (interpValues A B ((j : ℚ) / (k : ℚ))) := by
    have := (Option.some.injEq _ _).mp hfr
    rw [← this, stepFrame_snd]
  have hperm : (fr.2.map Entry.name).Perm (unionKeys A B) := by
    rw [hfr2]
    have := rank_name_perm n (interpValues A B ((j : ℚ) / (k : ℚ)))
    rwa [interpValues_keys] at this
  refine ⟨hperm, ?_, ?_⟩
  · intro nm hnm
    rw [hperm.count_eq]
    exact List.count_eq_one_of_mem (unionKeys_nodup A B) hnm
  · intro hj0 nm hnm hnotA
    subst hj0
    have ht : ((0 : ℕ) : ℚ) / (k : ℚ) = 0 := by simp
    rw [hfr2, ht]
    have hnodup : ((interpValues A B 0).map Prod.fst).Nodup := by
      rw [interpValues_keys]
      exact unionKeys_nodup A B
    rw [entryValue?_rank n hnodup nm, interpValues_lookup hnm]
    rw [getD_eq_zero_of_not_mem hnotA]
    norm_num

/-- Witness for C10 at the counterexample data: `Z` enters in snapshot B
and appears in the `t = 0` sub-frame with value 0. -/
theorem C10_witness :
    1 ≤ 1 ∧ 0 < 1 ∧ cexDv[0]? = some (0, cexA) ∧
    cexDv[0+1]? = some (1, cexB) ∧
    (framesD 10 1 cexDv)[0 * 1 + 0]? =
      some (stepFrame 10 ((0 : ℚ), cexA) ((1 : ℚ), cexB) 1 0) ∧
    (((stepFrame 10 ((0 : ℚ), cexA) ((1 : ℚ), cexB) 1 0).2.map
        Entry.name).Perm (unionKeys cexA cexB) ∧
     (∀ nm ∈ unionKeys cexA cexB,
       ((stepFrame 10 ((0 : ℚ), cexA) ((1 : ℚ), cexB) 1 0).2.map
         Entry.name).count nm = 1) ∧
     (0 = 0 → ∀ nm ∈ unionKeys cexA cexB, ¬ nm ∈ cexA.map Prod.fst →
       entryValue? (stepFrame 10 ((0 : ℚ), cexA) ((1 : ℚ), cexB) 1 0).2 nm =
         some 0)) := by
  have hfr : (framesD 10 1 cexDv)[0 * 1 + 0]? =
      some (stepFrame 10 ((0 : ℚ), cexA) ((1 : ℚ), cexB) 1 0) := by
    have := @framesD_getElem?_pair 10 1 cexDv 0 (by norm_num [cexDv]) 0
      (by norm_num)
    simpa [cexDv] using this
  refine ⟨by norm_num, by norm_num, rfl, rfl, hfr, ?_⟩
  exact C10_union_frames 10 1 cexDv 0 0 0 1 cexA cexB (by norm_num)
    (by norm_num) rfl rfl _ hfr

/-! ### Claim C4: every synthesized frame is a `rank` output -/

theorem framesD_entries (n k : ℕ) (dv : List (ℚ × ValueMap))
    (fr : ℚ × List Entry) (hfr : fr ∈ framesD n k dv) :
    ∃ m : ValueMap, fr.2 = rank n m ∧
      ((m.map Prod.fst).Nodup ∨ ∃ p ∈ dv, m = p.2) := by
  cases hh : dv.getLast? with
  | none =>
    rw [framesD, buildKeyframes, hh] at hfr
    simp at hfr
  | some last =>
    rw [framesD, buildKeyframes, hh] at hfr
    simp only [Option.getD_some] at hfr
    rcases List.mem_append.mp hfr with h | h
    · obtain ⟨pr, _, hmem⟩ := List.mem_flatMap.mp h
      obtain ⟨j, _, hstep⟩ := List.mem_map.mp hmem
      refine ⟨interpValues pr.1.2 pr.2.2 ((j : ℚ) / ((max 1 k : ℕ) : ℚ)),
        ?_, Or.inl ?_⟩
      · rw [← hstep, stepFrame_snd]
      · rw [interpValues_keys]
        exact unionKeys_nodup _ _
    · have hfr' : fr = (last.1, rank n last.2) := by simpa using h
      refine ⟨last.2, by rw [hfr'], Or.inr ⟨last, ?_, rfl⟩⟩
      obtain ⟨ys, hys⟩ := List.getLast?_eq_some_iff.mp hh
      rw [hys]
      simp

theorem framesD_names_nodup {n k : ℕ} {dv : List (ℚ × ValueMap)}
    (hWF : ∀ p ∈ dv, ((p.2 : ValueMap).map Prod.fst).Nodup)
    {fr : ℚ × List Entry} (hfr : fr ∈ framesD n k dv) :
    (fr.2.map Entry.name).Nodup := by
  obtain ⟨m, hm, hcase⟩ := framesD_entries n k dv fr hfr
  have hkeys : (m.map Prod.fst).Nodup := by
    rcases hcase with h | ⟨p, hp, rfl⟩
    · exact h
    · exact hWF p hp
  rw [hm]
  exact ((rank_name_perm n m).nodup_iff).mpr hkeys

/-- C4: in every frame the synthesizer produces with top-K parameter `n`,
the `i`-th entry (0-based) carries `rank = min n i` — hence every rank
lies in `[0, n]` and all entries beyond the `n`-th share the clamp rank
`n` — the entries are sorted descending by value, and the ranking keeps
value-ties in stable input order. -/
theorem C4_rank_invariants (n k : ℕ) (dv : List (ℚ × ValueMap))
    (fr : ℚ × List Entry) (hfr : fr ∈ framesD n k dv) :
    (∀ i (hi : i < fr.2.length),
      (fr.2[i]).rnk = min n i ∧ (fr.2[i]).rnk ≤ n) ∧
    fr.2.Pairwise (fun e f : Entry => f.value ≤ e.value) ∧
    (∀ (m : ValueMap) (v : ℚ),
      ((rank n m).filter fun e => decide (e.value = v)).map Entry.name =
        (m.filter fun p => decide (p.2 = v)).map Prod.fst) := by
  obtain ⟨m, hm, -⟩ := framesD_entries n k dv fr hfr
  refine ⟨?_, ?_, fun m' v => rank_stable n m' v⟩
  · intro i hi
    have hi' : i < (rank n m).length := by rw [← hm]; exact hi
    have h1 : fr.2[i] = (rank n m)[i] := List.getElem_of_eq hm hi
    rw [h1, rank_getElem_rnk n m i hi']
    exact ⟨rfl, Nat.min_le_left n i⟩
  · rw [hm]
    exact rank_sorted n m

/-- Witness for C4 at the first sub-frame of the sample data. -/
theorem C4_witness :
    stepFrame 10 ((0 : ℚ), sampleA) ((1 : ℚ), sampleB) 2 0 ∈
      framesD 10 2 sampleDv ∧
    ((∀ i (hi : i <
        (stepFrame 10 ((0 : ℚ), sampleA) ((1 : ℚ), sampleB) 2 0).2.length),
      ((stepFrame 10 ((0 : ℚ), sampleA) ((1 : ℚ), sampleB) 2 0).2[i]).rnk =
        min 10 i ∧
      ((stepFrame 10 ((0 : ℚ), sampleA) ((1 : ℚ), sampleB) 2 0).2[i]).rnk ≤ 10) ∧
     (stepFrame 10 ((0 : ℚ), sampleA) ((1 : ℚ), sampleB) 2 0).2.Pairwise
       (fun e f : Entry => f.value ≤ e.value) ∧
     (∀ (m : ValueMap) (v : ℚ),
       ((rank 10 m).filter fun e => decide (e.value = v)).map Entry.name =
         (m.filter fun p => decide (p.2 = v)).map Prod.fst)) := by
  have hmem : stepFrame 10 ((0 : ℚ), sampleA) ((1 : ℚ), sampleB) 2 0 ∈
      framesD 10 2 sampleDv := by
    refine List.mem_iff_getElem?.mpr ⟨0, ?_⟩
    have := @framesD_getElem?_pair 10 2 sampleDv 0 (by norm_num [sampleDv]) 0
      (by norm_num)
    simpa [sampleDv] using this
  exact ⟨hmem, C4_rank_invariants 10 2 sampleDv _ hmem⟩

/-! ### Claim C6: the trailing window filter -/

theorem length_filter_mono {α : Type} {p q : α → Bool} (l : List α)
    (h : ∀ a ∈ l, p a = true → q a = true) :
    (l.filter p).length ≤ (l.filter q).length := by
  induction l with
  | nil => simp
  | cons a tl ih =>
    have ih' := ih fun b hb => h b (List.mem_cons_of_mem _ hb)
    by_cases hpa : p a = true
    · rw [List.filter_cons_of_pos hpa,
        List.filter_cons_of_pos (h a (List.mem_cons_self _ _) hpa)]
      simpa using ih'
    · rw [List.filter_cons_of_neg (by simpa using hpa)]
      by_cases hqa : q a = true
      · rw [List.filter_cons_of_pos hqa]
        exact le_trans ih' (by simp)
      · rw [List.filter_cons_of_neg (by simpa using hqa)]
        exact ih'

/-- First snapshot date of the C6 counterexample (January 2020). -/
def c6dA : MDate := ⟨2020, 0, 31⟩

/-- Last snapshot date of the C6 counterexample (January 2023). -/
def c6dB : MDate := ⟨2023, 0, 31⟩

/-- The counterexample snapshot list for the window filter. -/
def c6dv : List (MDate × ValueMap) := [(c6dA, []), (c6dB, [])]

/-- C6 counterexample: increasing `windowYears` from 0 to 1 DECREASES the
number of snapshots retained (0 retains all, 1 drops the 2020 snapshot),
so window monotonicity fails across the `windowYears = 0` (unbounded)
case. -/
theorem C6_counterexample :
    (0 : Int) ≤ 1 ∧
    (applyWindow 1 c6dv).length < (applyWindow 0 c6dv).length := by decide

/-- C6 (amended): for a non-empty snapshot list, a positive `windowYears`
keeps exactly the snapshots at or after the cutoff
`(last.year − windowYears, last.month, 1)`; `windowYears ≤ 0` (and in
particular 0) retains all snapshots; and retention is monotone in
`windowYears` on the positive range `0 < w1 ≤ w2` (the counterexample
forces excluding the step from 0, which already retains everything). -/
theorem C6_window_amended (w w1 w2 : Int) (dv : List (MDate × ValueMap))
    (L : MDate × ValueMap) (hL : dv.getLast? = some L) :
    (0 < w → ∀ s, s ∈ applyWindow w dv ↔
      s ∈ dv ∧ (cutoffDate L.1 w).ts ≤ s.1.ts) ∧
    (w ≤ 0 → applyWindow w dv = dv) ∧
    (0 < w1 → w1 ≤ w2 →
      (applyWindow w1 dv).length ≤ (applyWindow w2 dv).length) ∧
    applyWindow 0 dv = dv := by
  refine ⟨?_, ?_, ?_, ?_⟩
  · intro hw s
    unfold applyWindow
    rw [if_neg (by omega), hL]
    simp [List.mem_filter]
  · intro hw
    unfold applyWindow
    rw [if_pos hw]
  · intro hw1 hw12
    unfold applyWindow
    rw [if_neg (by omega), if_neg (by omega), hL]
    refine length_filter_mono dv fun p _ hp => ?_
    simp only [decide_eq_true_eq] at hp ⊢
    have hcut : (cutoffDate L.1 w2).ts ≤ (cutoffDate L.1 w1).ts := by
      simp only [cutoffDate, MDate.ts]
      omega
    omega
  · unfold applyWindow
    rw [if_pos (by norm_num)]

/-- Witness for the amended C6 at the counterexample data with
`w = 2, w1 = 1, w2 = 2`. -/
theorem C6_witness :
    c6dv.getLast? = some (c6dB, []) ∧
    (((0 : Int) < 2 → ∀ s, s ∈ applyWindow 2 c6dv ↔
       s ∈ c6dv ∧ (cutoffDate c6dB 2).ts ≤ s.1.ts) ∧
     ((2 : Int) ≤ 0 → applyWindow 2 c6dv = c6dv) ∧
     ((0 : Int) < 1 → (1 : Int) ≤ 2 →
       (applyWindow 1 c6dv).length ≤ (applyWindow 2 c6dv).length) ∧
     applyWindow 0 c6dv = c6dv) :=
  ⟨rfl, C6_window_amended 2 1 2 c6dv (c6dB, []) rfl⟩

/-! ### Claim C8: the series normalizer's failure policy -/

theorem length_filterMap_eq {α β : Type} (f : α → Option β) (l : List α) :
    (l.filterMap f).length = (l.filter fun a => (f a).isSome).length := by
  induction l with
  | nil => rfl
  | cons a tl ih =>
    cases hfa : f a with
    | none =>
      rw [List.filterMap_cons_none hfa, List.filter_cons_of_neg (by simp [hfa])]
      exact ih
    | some b =>
      rw [List.filterMap_cons_some hfa, List.filter_cons_of_pos (by simp [hfa])]
      simpa using ih

theorem length_filter_add_compl {α : Type} (p : α → Bool) (l : List α) :
    (l.filter p).length + (l.filter fun a => !(p a)).length = l.length := by
  induction l with
  | nil => rfl
  | cons a tl ih =>
    by_cases hpa : p a = true
    · rw [List.filter_cons_of_pos hpa, List.filter_cons_of_neg (by simp [hpa])]
      simp only [List.length_cons]
      omega
    · rw [List.filter_cons_of_neg (by simpa using hpa),
        List.filter_cons_of_pos (by simpa using hpa)]
      simp only [List.length_cons]
      omega

/-- C8: the normalizer silently drops exactly the records whose date
fails to parse or whose value is non-finite, keeps all others (the
surviving rows are a permutation — the stable date sort — of the
normalizations of the well-formed records, so the count drops by exactly
the malformed count), and throws if and only if every record is
malformed; in particular no exception escapes for partially malformed
input. -/
theorem C8_normalizer (raw : List RawRecord) :
    (baseDataOf raw = Except.error "No rows loaded from CSV." ↔
      ∀ r ∈ raw, normalizeRecord r = none) ∧
    (∀ rows, baseDataOf raw = Except.ok rows →
      rows.length = raw.length -
        (raw.filter fun r => decide (normalizeRecord r = none)).length ∧
      rows.Perm (raw.filterMap normalizeRecord)) := by
  have hcnt : ((raw.filterMap normalizeRecord).mergeSort fun a b =>
      decide (a.date.ts ≤ b.date.ts)).length = raw.length -
      (raw.filter fun r => decide (normalizeRecord r = none)).length := by
    rw [List.length_mergeSort, length_filterMap_eq]
    have hsum := length_filter_add_compl
      (fun r => (normalizeRecord r).isSome) raw
    have hcong : (raw.filter fun r => !((normalizeRecord r).isSome)) =
        raw.filter fun r => decide (normalizeRecord r = none) :=
      List.filter_congr fun r _ => by cases normalizeRecord r <;> simp
    rw [hcong] at hsum
    omega
  unfold baseDataOf
  by_cases hemp : ((raw.filterMap normalizeRecord).mergeSort fun a b =>
      decide (a.date.ts ≤ b.date.ts)).isEmpty
  · rw [if_pos hemp]
    have hnil : raw.filterMap normalizeRecord = [] := by
      have h0 : ((raw.filterMap normalizeRecord).mergeSort fun a b =>
          decide (a.date.ts ≤ b.date.ts)) = [] := by
        rwa [List.isEmpty_iff] at hemp
      have := List.mergeSort_perm (raw.filterMap normalizeRecord)
        fun a b => decide (a.date.ts ≤ b.date.ts)
      rw [h0] at this
      exact (this.nil_eq).symm
    constructor
    · constructor
      · intro _ r hr
        cases hnr : normalizeRecord r with
        | none => rfl
        | some o =>
          exfalso
          have : o ∈ raw.filterMap normalizeRecord :=
            List.mem_filterMap.mpr ⟨r, hr, hnr⟩
          rw [hnil] at this
          simp at this
      · intro _
        rfl
    · intro rows hc
      exact absurd hc (by simp)
  · rw [if_neg hemp]
    constructor
    · constructor
      · intro hc
        exact absurd hc (by simp)
      · intro hall
        exfalso
        have hnil : raw.filterMap normalizeRecord = [] := by
          rw [List.filterMap_eq_nil_iff]
          exact hall
        rw [hnil] at hemp
        simp [List.mergeSort_nil] at hemp
    · intro rows hc
      have hrows : rows = (raw.filterMap normalizeRecord).mergeSort
          fun a b => decide (a.date.ts ≤ b.date.ts) :=
        ((Except.ok.injEq _ _).mp hc).symm
      subst hrows
      exact ⟨hcnt, List.mergeSort_perm _ _⟩

/-- A well-formed raw row. -/
def c8good : RawRecord := ⟨some ⟨2020, 0, 31⟩, "X", some 2, some "Tech"⟩

/-- A raw row whose date fails to parse. -/
def c8bad : RawRecord := ⟨none, "Y", some 3, none⟩

/-- A partially malformed raw input. -/
def c8raw : List RawRecord := [c8good, c8bad]

/-- Witness for C8: one good and one malformed row — the malformed row is
dropped, the count drops by exactly one, and no error is raised. -/
theorem C8_witness :
    baseDataOf c8raw = Except.ok [⟨⟨2020, 0, 31⟩, "X", 2, "Tech"⟩] ∧
    ([(⟨⟨2020, 0, 31⟩, "X", 2, "Tech"⟩ : Obs)].length = c8raw.length -
      (c8raw.filter fun r => decide (normalizeRecord r = none)).length) := by
  have h1 : baseDataOf c8raw = Except.ok [⟨⟨2020, 0, 31⟩, "X", 2, "Tech"⟩] := by
    simp [baseDataOf, c8raw, c8good, c8bad, normalizeRecord]
  exact ⟨h1, ((C8_normalizer c8raw).2 _ h1).1⟩

/-! ### Claim C9: the `setTopN` clamp -/

/-- C9 counterexample: `setTopN(0)` yields the default 10 (the falsy
`+newN || 10` fallback), not the claimed floor 3, although `0 < 3`. -/
theorem C9_counterexample_topn :
    setTopNClamp 0 = 10 ∧ (0 : Int) < 3 ∧ setTopNClamp 0 ≠ 3 := by decide

/-- C9 (amended): `setTopN(x)`'s parameter handling never fails and
floor-clamps to `max 3 x` — the result is `x` for `x ≥ 3` and `3` for
`x < 3` — EXCEPT at the falsy argument `x = 0`, which falls back to the
default 10 (the counterexample forces this exception); the resulting
`topN` is always ≥ 3, the new state's `n` is exactly the clamped value,
and whether `setTopN` succeeds is independent of the argument (it only
fails when the rebuild itself faults on empty data). -/
theorem C9_topn_amended (base : List Obs) (s : RaceState) (x : Int) :
    3 ≤ setTopNClamp x ∧
    (3 ≤ x → (setTopNClamp x : Int) = x) ∧
    (x < 3 → ¬ x = 0 → setTopNClamp x = 3) ∧
    setTopNClamp 0 = 10 ∧
    (∀ s1, setTopN base s x = some s1 → s1.n = setTopNClamp x) ∧
    ((setTopN base s x).isSome ↔ (rebuildFramesFor base
      { s with n := setTopNClamp x, frameIndex := 0 }).isSome) := by
  refine ⟨?_, ?_, ?_, by decide, ?_, ?_⟩
  · unfold setTopNClamp
    split <;> omega
  · intro hx
    unfold setTopNClamp
    split <;> omega
  · intro hx hx0
    unfold setTopNClamp
    split <;> omega
  · intro s1 h1
    unfold setTopN at h1
    dsimp only at h1
    cases hrb : rebuildFramesFor base
        { s with n := setTopNClamp x, frameIndex := 0 } with
    | none =>
      rw [hrb] at h1
      simp at h1
    | some F =>
      rw [hrb] at h1
      simp only [Option.map_some', Option.some.injEq] at h1
      rw [← h1]
  · unfold setTopN
    simp

/-! ### Claim C7: structural mutators resynthesize and reset the cursor -/

/-- C7: each structural mutator — `setTopN`, `setWindowYears`,
`setCategories` — stores the new parameter, rebuilds the frame sequence
from the newly filtered/windowed data (the predecessor/successor lookups
`prevOf`/`nextOf` are functions of that frame list, so they are rebuilt
with it), resets the frame cursor to 0, and leaves the `playing` flag and
the frame duration unchanged. -/
theorem C7_mutators (base : List Obs) (s : RaceState) (x y : Int)
    (list : List String) :
    (∀ s1, setTopN base s x = some s1 →
      s1.playing = s.playing ∧ s1.duration = s.duration ∧
      s1.frameIndex = 0 ∧ s1.n = setTopNClamp x ∧
      some s1.frames = rebuildFramesFor base
        { s with n := setTopNClamp x, frameIndex := 0 }) ∧
    (∀ s1, setWindowYears base s y = some s1 →
      s1.playing = s.playing ∧ s1.duration = s.duration ∧
      s1.frameIndex = 0 ∧ s1.windowYears = y ∧
      some s1.frames = rebuildFramesFor base
        { s with windowYears := y, frameIndex := 0 }) ∧
    (∀ s1, setCategories base s list = some s1 →
      s1.playing = s.playing ∧ s1.duration = s.duration ∧
      s1.frameIndex = 0 ∧
      s1.categories = (if list.isEmpty then categoryNamesOf base else list) ∧
      some s1.frames = rebuildFramesFor base
        { s with frameIndex := 0,
                 categories := if list.isEmpty then categoryNamesOf base else list }) := by
  refine ⟨?_, ?_, ?_⟩
  · intro s1 h1
    unfold setTopN at h1
    dsimp only at h1
    cases hrb : rebuildFramesFor base
        { s with n := setTopNClamp x, frameIndex := 0 } with
    | none =>
      rw [hrb] at h1
      simp at h1
    | some F =>
      rw [hrb] at h1
      simp only [Option.map_some', Option.some.injEq] at h1
      rw [← h1]
      exact ⟨rfl, rfl, rfl, rfl, rfl⟩
  · intro s1 h1
    unfold setWindowYears at h1
    dsimp only at h1
    cases hrb : rebuildFramesFor base
        { s with windowYears := y, frameIndex := 0 } with
    | none =>
      rw [hrb] at h1
      simp at h1
    | some F =>
      rw [hrb] at h1
      simp only [Option.map_some', Option.some.injEq] at h1
      rw [← h1]
      exact ⟨rfl, rfl, rfl, rfl, rfl⟩
  · intro s1 h1
    unfold setCategories at h1
    dsimp only at h1
    cases hrb : rebuildFramesFor base
        { s with frameIndex := 0,
                 categories := if list.isEmpty then categoryNamesOf base else list } with
    | none =>
      rw [hrb] at h1
      simp at h1
    | some F =>
      rw [hrb] at h1
      simp only [Option.map_some', Option.some.injEq] at h1
      rw [← h1]
      exact ⟨rfl, rfl, rfl, rfl, rfl⟩

/-- A one-observation base table for the controller witnesses. -/
def obs1 : Obs := ⟨⟨2020, 0, 31⟩, "X", 2, "Tech"⟩

/-- The base data of the controller witnesses. -/
def base1 : List Obs := [obs1]

/-- An initial controller state (unbounded window, paused). -/
def s0 : RaceState := ⟨10, 120, 1, 0, ["Tech"], false, [], 0⟩

/-- The state `setTopN base1 s0 5` produces. -/
def c7s1 : RaceState :=
  ⟨5, 120, 1, 0, ["Tech"], false, [(1034271, [⟨"X", 2, 0⟩])], 0⟩

/-- Witness for C7: `setTopN 5` on the one-observation sample rebuilds the
single frame, resets the cursor, and preserves `playing`/`duration`. -/
theorem C7_witness :
    setTopN base1 s0 5 = some c7s1 ∧
    (c7s1.playing = s0.playing ∧ c7s1.duration = s0.duration ∧
     c7s1.frameIndex = 0 ∧ c7s1.n = setTopNClamp 5 ∧
     some c7s1.frames = rebuildFramesFor base1
       { s0 with n := setTopNClamp 5, frameIndex := 0 }) := by
  have h1 : setTopN base1 s0 5 = some c7s1 := by
    have hc : setTopNClamp 5 = 5 := by decide
    norm_num [setTopN, rebuildFramesFor, filteredData, base1, obs1, s0,
      buildDateValues, valueMapAt, dedupKeepFirst, applyWindow,
      buildKeyframes, rank, hc, MDate.ts, c7s1, interpValues]
  exact ⟨h1, (C7_mutators base1 s0 5 0 []).1 c7s1 h1⟩

/-- Witness for the amended C9 at a concrete state and argument. -/
theorem C9_witness :
    3 ≤ setTopNClamp 5 ∧
    (3 ≤ (5 : Int) → (setTopNClamp 5 : Int) = 5) ∧
    ((5 : Int) < 3 → ¬ (5 : Int) = 0 → setTopNClamp 5 = 3) ∧
    setTopNClamp 0 = 10 ∧
    (∀ s1, setTopN base1 s0 5 = some s1 → s1.n = setTopNClamp 5) ∧
    ((setTopN base1 s0 5).isSome ↔ (rebuildFramesFor base1
      { s0 with n := setTopNClamp 5, frameIndex := 0 }).isSome) :=
  C9_topn_amended base1 s0 5

/-! ### Claim C5: identity tracker machinery -/

theorem filterMap_ite {α β : Type} (p : α → Prop) [DecidablePred p]
    (f : α → β) (l : List α) :
    (l.filterMap fun x => if p x then some (f x) else none) =
      (l.filter fun x => decide (p x)).map f := by
  induction l with
  | nil => rfl
  | cons a tl ih =>
    by_cases hpa : p a
    · have hsome : (if p a then some (f a) else none) = some (f a) := by
        simp [hpa]
      rw [@List.filterMap_cons_some α β
          (fun x => if p x then some (f x) else none) a tl (f a) hsome,
        List.filter_cons_of_pos (by simpa using hpa), List.map_cons, ih]
    · have hnone : (if p a then some (f a) else none) = none := by
        simp [hpa]
      rw [@List.filterMap_cons_none α β
          (fun x => if p x then some (f x) else none) a tl hnone,
        List.filter_cons_of_neg (by simpa using hpa), ih]

theorem pairwise_of_length_le_one {α : Type} {R : α → α → Prop}
    {l : List α} (h : l.length ≤ 1) : l.Pairwise R := by
  cases l with
  | nil => exact List.Pairwise.nil
  | cons a tl =>
    cases tl with
    | nil => simp
    | cons b tl2 => simp at h

theorem countP_name_le_one {es : List Entry}
    (h : (es.map Entry.name).Nodup) (nm : String) :
    es.countP (fun e => decide (e.name = nm)) ≤ 1 := by
  induction es with
  | nil => simp
  | cons e tl ih =>
    rw [List.map_cons, List.nodup_cons] at h
    rw [List.countP_cons]
    by_cases hn : e.name = nm
    · have h0 : tl.countP (fun e' => decide (e'.name = nm)) = 0 := by
        rw [List.countP_eq_zero]
        intro e' he' hc
        have h1 : e'.name = nm := by simpa using hc
        refine h.1 ?_
        rw [hn, ← h1]
        exact List.mem_map_of_mem Entry.name he'
      simp [h0, hn]
    · simp only [hn, decide_eq_true_eq, if_neg]
      simpa using ih h.2

theorem enum_pairwise_fst {α : Type} (l : List α) :
    l.enum.Pairwise fun a b : ℕ × α => a.1 < b.1 := by
  have h1 : l.enum.map Prod.fst = List.range l.length := by
    rw [List.enum_eq_zip_range, List.map_fst_zip]
    rw [List.length_range]
  refine (@List.pairwise_map (ℕ × α) ℕ Prod.fst (· < ·) l.enum).mp ?_
  rw [h1]
  exact List.pairwise_lt_range _

theorem mem_occList {F : List (ℚ × List Entry)} {nm : String} {i p : ℕ} :
    (i, p) ∈ occList F nm ↔
      ∃ fr, F[i]? = some fr ∧ ∃ e, fr.2[p]? = some e ∧ e.name = nm := by
  unfold occList
  rw [List.mem_flatMap]
  constructor
  · rintro ⟨a, ha, hmem⟩
    obtain ⟨pe, hpe, hres⟩ := List.mem_filterMap.mp hmem
    by_cases hn : pe.2.name = nm
    · rw [if_pos hn] at hres
      have h1 := (Option.some.injEq _ _).mp hres
      have hai : a.1 = i := congrArg Prod.fst h1
      have hpp : pe.1 = p := congrArg Prod.snd h1
      have haF : F[a.1]? = some a.2 := List.mem_enum_iff_getElem?.mp ha
      have hpe' : a.2.2[pe.1]? = some pe.2 := List.mem_enum_iff_getElem?.mp hpe
      rw [hai] at haF
      rw [hpp] at hpe'
      exact ⟨a.2, haF, pe.2, hpe', hn⟩
    · rw [if_neg hn] at hres
      simp at hres
  · rintro ⟨fr, hfr, e, he, hname⟩
    refine ⟨(i, fr), List.mem_enum_iff_getElem?.mpr hfr,
      List.mem_filterMap.mpr ⟨(p, e), List.mem_enum_iff_getElem?.mpr he, ?_⟩⟩
    rw [if_pos hname]

theorem chunk_fst {a : ℕ × (ℚ × List Entry)} {nm : String} {x : ℕ × ℕ}
    (hx : x ∈ a.2.2.enum.filterMap fun pe =>
      if pe.2.name = nm then some (a.1, pe.1) else none) :
    x.1 = a.1 := by
  obtain ⟨pe, _, hres⟩ := List.mem_filterMap.mp hx
  by_cases hn : pe.2.name = nm
  · rw [if_pos hn] at hres
    exact (congrArg Prod.fst ((Option.some.injEq _ _).mp hres)).symm
  · rw [if_neg hn] at hres
    simp at hres

theorem occList_pairwise {F : List (ℚ × List Entry)} {nm : String}
    (hnd : ∀ fr ∈ F, ((fr.2 : List Entry).map Entry.name).Nodup) :
    (occList F nm).Pairwise fun x y : ℕ × ℕ => x.1 < y.1 := by
  unfold occList
  rw [List.pairwise_flatMap]
  constructor
  · intro a ha
    refine pairwise_of_length_le_one ?_
    rw [filterMap_ite (fun pe : ℕ × Entry => pe.2.name = nm)
      (fun pe : ℕ × Entry => (a.1, pe.1)), List.length_map,
      ← List.countP_eq_length_filter]
    have hcnt : a.2.2.enum.countP (fun pe : ℕ × Entry => decide (pe.2.name = nm)) =
        a.2.2.countP fun e => decide (e.name = nm) := by
      have := List.countP_map (fun e : Entry => decide (e.name = nm))
        Prod.snd a.2.2.enum
      rw [List.enum_map_snd] at this
      exact this.symm
    rw [hcnt]
    have hmem : a.2 ∈ F :=
      List.mem_iff_getElem?.mpr ⟨a.1, List.mem_enum_iff_getElem?.mp ha⟩
    exact countP_name_le_one (hnd a.2 hmem) nm
  · refine (enum_pairwise_fst F).imp ?_
    intro a b hab x hx y hy
    rw [chunk_fst hx, chunk_fst hy]
    exact hab

theorem findIdx?_self_of_pairwise {occs : List (ℕ × ℕ)}
    (hpw : occs.Pairwise fun a b : ℕ × ℕ => a.1 < b.1) {ix : ℕ} {x : ℕ × ℕ}
    (hx : occs[ix]? = some x) :
    occs.findIdx? (fun y => decide (y = x)) = some ix := by
  obtain ⟨hlt, heq⟩ := List.getElem?_eq_some_iff.mp hx
  rw [List.findIdx?_eq_some_iff_getElem]
  refine ⟨hlt, by simp [heq], ?_⟩
  intro j hj
  have hij := List.pairwise_iff_getElem.mp hpw j ix (by omega) hlt hj
  simp only [decide_eq_true_eq]
  intro hc
  rw [hc, heq] at hij
  exact lt_irrefl _ hij

theorem pairwise_adjacent {occs : List (ℕ × ℕ)}
    (hpw : occs.Pairwise fun a b : ℕ × ℕ => a.1 < b.1)
    {ix iy i pa pb : ℕ}
    (hx : occs[ix]? = some (i, pa)) (hy : occs[iy]? = some (i+1, pb)) :
    iy = ix + 1 := by
  obtain ⟨hltx, heqx⟩ := List.getElem?_eq_some_iff.mp hx
  obtain ⟨hlty, heqy⟩ := List.getElem?_eq_some_iff.mp hy
  have hgt : ix < iy := by
    rcases lt_trichotomy ix iy with h | h | h
    · exact h
    · exfalso
      rw [h, hy] at hx
      have := congrArg Prod.fst ((Option.some.injEq _ _).mp hx)
      simp at this
    · exfalso
      have := List.pairwise_iff_getElem.mp hpw iy ix hlty hltx h
      rw [heqx, heqy] at this
      simp at this
  by_contra hne
  have hmid : ix + 1 < iy := by omega
  have hzlt : ix + 1 < occs.length := by omega
  have h1 := List.pairwise_iff_getElem.mp hpw ix (ix+1) hltx hzlt (by omega)
  have h2 := List.pairwise_iff_getElem.mp hpw (ix+1) iy hzlt hlty hmid
  rw [heqx] at h1
  rw [heqy] at h2
  omega

/-- C5: for an entity (name) present in consecutive frames `i` and
`i + 1` of the synthesized sequence, the identity tracker's predecessor
map sends frame `i+1`'s entry for that entity (identified by its position
in the frame sequence, the model of object identity) to frame `i`'s entry
for it, and the successor map sends frame `i`'s entry to frame `i+1`'s;
an entity's first entry has no predecessor and its last entry has no
successor (the lookup is absent, not a null value). -/
theorem C5_identity_links (n k : ℕ) (dv : List (ℚ × ValueMap)) (nm : String)
    (hWF : ∀ p ∈ dv, ((p.2 : ValueMap).map Prod.fst).Nodup)
    (i pa pb : ℕ) (frA frB : ℚ × List Entry) (ea eb : Entry)
    (hfA : (framesD n k dv)[i]? = some frA)
    (hfB : (framesD n k dv)[i+1]? = some frB)
    (hea : frA.2[pa]? = some ea) (heb : frB.2[pb]? = some eb)
    (hna : ea.name = nm) (hnb : eb.name = nm) :
    (prevOf (framesD n k dv) nm (i+1, pb) = some (i, pa) ∧
     nextOf (framesD n k dv) nm (i, pa) = some (i+1, pb)) ∧
    (∀ x, (occList (framesD n k dv) nm).head? = some x →
      prevOf (framesD n k dv) nm x = none) ∧
    (∀ x, (occList (framesD n k dv) nm).getLast? = some x →
      nextOf (framesD n k dv) nm x = none) := by
  have hnd : ∀ fr ∈ framesD n k dv, ((fr.2 : List Entry).map Entry.name).Nodup :=
    fun fr hfr => framesD_names_nodup hWF hfr
  have hpw := @occList_pairwise (framesD n k dv) nm hnd
  have hxmem : (i, pa) ∈ occList (framesD n k dv) nm :=
    mem_occList.mpr ⟨frA, hfA, ea, hea, hna⟩
  have hymem : (i+1, pb) ∈ occList (framesD n k dv) nm :=
    mem_occList.mpr ⟨frB, hfB, eb, heb, hnb⟩
  obtain ⟨ix, hix⟩ := List.mem_iff_getElem?.mp hxmem
  obtain ⟨iy, hiy⟩ := List.mem_iff_getElem?.mp hymem
  have hadj : iy = ix + 1 := pairwise_adjacent hpw hix hiy
  subst hadj
  refine ⟨⟨?_, ?_⟩, ?_, ?_⟩
  · unfold prevOf
    rw [findIdx?_self_of_pairwise hpw hiy]
    show (occList (framesD n k dv) nm).get? ix = some (i, pa)
    rw [List.get?_eq_getElem?]
    exact hix
  · unfold nextOf
    rw [findIdx?_self_of_pairwise hpw hix]
    show (occList (framesD n k dv) nm).get? (ix + 1) = some (i+1, pb)
    rw [List.get?_eq_getElem?]
    exact hiy
  · intro x hx
    unfold prevOf
    rw [List.head?_eq_getElem?] at hx
    rw [findIdx?_self_of_pairwise hpw hx]
  · intro x hx
    have hne : occList (framesD n k dv) nm ≠ [] := by
      intro h0
      rw [h0] at hx
      simp at hx
    rw [List.getLast?_eq_getElem?] at hx
    unfold nextOf
    rw [findIdx?_self_of_pairwise hpw hx]
    show (occList (framesD n k dv) nm).get?
      ((occList (framesD n k dv) nm).length - 1 + 1) = none
    rw [List.get?_eq_getElem?]
    apply List.getElem?_eq_none
    have : 0 < (occList (framesD n k dv) nm).length :=
      List.length_pos.mpr hne
    omega

/-- Witness for C5: entity `X` is present in both frames of the sample
sequence; its second entry links back to its first and vice versa, and
the boundary entries have no predecessor/successor. -/
theorem C5_witness :
    (∀ p ∈ sampleDv, ((p.2 : ValueMap).map Prod.fst).Nodup) ∧
    (framesD 10 1 sampleDv)[0]? = some ((0 : ℚ), [⟨"X", 2, 0⟩]) ∧
    (framesD 10 1 sampleDv)[0+1]? = some ((1 : ℚ), [⟨"X", 4, 0⟩]) ∧
    (((0 : ℚ), [(⟨"X", 2, 0⟩ : Entry)]).2[0]? = some ⟨"X", 2, 0⟩) ∧
    (((1 : ℚ), [(⟨"X", 4, 0⟩ : Entry)]).2[0]? = some ⟨"X", 4, 0⟩) ∧
    ((prevOf (framesD 10 1 sampleDv) "X" (0+1, 0) = some (0, 0) ∧
      nextOf (framesD 10 1 sampleDv) "X" (0, 0) = some (0+1, 0)) ∧
     (∀ x, (occList (framesD 10 1 sampleDv) "X").head? = some x →
       prevOf (framesD 10 1 sampleDv) "X" x = none) ∧
     (∀ x, (occList (framesD 10 1 sampleDv) "X").getLast? = some x →
       nextOf (framesD 10 1 sampleDv) "X" x = none)) := by
  have hWF : ∀ p ∈ sampleDv, ((p.2 : ValueMap).map Prod.fst).Nodup := by
    decide
  have hF : framesD 10 1 sampleDv =
      [((0 : ℚ), [⟨"X", 2, 0⟩]), ((1 : ℚ), [⟨"X", 4, 0⟩])] := by
    norm_num [framesD, buildKeyframes, sampleDv, sampleA, sampleB, pairFrames,
      stepFrame, interpValues, unionKeys, dedupKeepFirst, getD, rank,
      List.range_succ]
  have hfA : (framesD 10 1 sampleDv)[0]? = some ((0 : ℚ), [⟨"X", 2, 0⟩]) := by
    rw [hF]
    rfl
  have hfB : (framesD 10 1 sampleDv)[0+1]? = some ((1 : ℚ), [⟨"X", 4, 0⟩]) := by
    rw [hF]
    rfl
  exact ⟨hWF, hfA, hfB, rfl, rfl,
    C5_identity_links 10 1 sampleDv "X" hWF 0 0 0 _ _ _ _ hfA hfB rfl rfl
      rfl rfl⟩

end BCR
